import Mathlib

/-!
Verification of the multi-task sampling and result-averaging logic of
`understanding/examples/run_xglue_ft.py`.

The Python numerics (float) are embedded over exact rationals `ℚ`, the
temperature exponent `task_ratio` as a natural number, `random.random()`
draws as an explicit stream of rationals (the real generator always returns
values in `[0, 1)`), Python iterators over a dataset as the list of items not
yet consumed, and a raised exception (`StopIteration` escaping the generator,
`IndexError`) as `Option.none`.
-/

namespace XGlue

/-- The probability vector computed at the top of `merge_dataset`:
`probs = [float(item)/sum(dataset_size) for item in dataset_size]`,
`probs = [item**task_ratio for item in probs]`,
`probs = [float(item)/sum(probs) for item in probs]`. -/
def computeProbs (dataset_size : List ℚ) (task_ratio : ℕ) : List ℚ :=
  let probs0 := dataset_size.map (fun item => item / dataset_size.sum)
  let probs1 := probs0.map (fun item => item ^ task_ratio)
  probs1.map (fun item => item / probs1.sum)

/-- The inner loop of `merge_dataset`:
`i = 0; while (r >= 0 and i < len(probs)): r -= probs[i]; i += 1`.
Returns the final value of `i`, i.e. the number of iterations executed. -/
def scanSubtract (probs : List ℚ) (r : ℚ) : ℕ :=
  match probs with
  | [] => 0
  | p :: ps => if 0 ≤ r then scanSubtract ps (r - p) + 1 else 0

/-- The selected task index: the loop above followed by `i -= 1`.
Natural subtraction agrees with Python's `int` here because the loop always
executes at least one iteration when `0 ≤ u` (true of `random.random()`)
and `probs` is non-empty. -/
def selectTask (probs : List ℚ) (u : ℚ) : ℕ :=
  scanSubtract probs u - 1

/-- One round of the `while True` body of `merge_dataset`: select a task from
the draw `u`, take `next(iterators[i])`, restarting the iterator from
`dataset_list[i]` on `StopIteration`; `none` models an exception escaping
the generator. -/
def mergeStep {α : Type} (dataset_list : List (List α)) (probs : List ℚ)
    (iterators : List (List α)) (u : ℚ) : Option ((ℕ × α) × List (List α)) :=
  let i := selectTask probs u
  match iterators[i]? with
  | none => none
  | some it =>
    match it with
    | item :: rest => some ((i, item), iterators.set i rest)
    | [] =>
      match dataset_list[i]? with
      | none => none
      | some d =>
        match d with
        | item :: rest => some ((i, item), iterators.set i rest)
        | [] => none

/-- Running the generator body once per draw in `us`, threading the iterator
states and collecting the yielded `(task_index, item)` pairs. -/
def mergeRun {α : Type} (dataset_list : List (List α)) (probs : List ℚ) :
    List (List α) → List ℚ → Option (List (ℕ × α) × List (List α))
  | iterators, [] => some ([], iterators)
  | iterators, u :: us =>
    match mergeStep dataset_list probs iterators u with
    | none => none
    | some (pair, iterators1) =>
      match mergeRun dataset_list probs iterators1 us with
      | none => none
      | some (out, iteratorsF) => some (pair :: out, iteratorsF)

/-- `merge_dataset(dataset_list, dataset_size, task_ratio)` consumed for
`us.length` yields, with `us` the stream of `random.random()` draws.
`iterators = [iter(d) for d in dataset_list]` starts each iterator at the
full dataset. -/
def merge_dataset {α : Type} (dataset_list : List (List α)) (dataset_size : List ℚ)
    (task_ratio : ℕ) (us : List ℚ) : Option (List (ℕ × α)) :=
  (mergeRun dataset_list (computeProbs dataset_size task_ratio) dataset_list us).map
    Prod.fst

/- ### Helper lemmas about `computeProbs` -/

lemma sum_map_div (l : List ℚ) (c : ℚ) :
    (l.map (fun x => x / c)).sum = l.sum / c := by
  induction l with
  | nil => simp
  | cons a l ih => simp [ih, add_div]

lemma computeProbs_eq_map (s : List ℚ) (r : ℕ) :
    computeProbs s r =
      s.map (fun x => (x / s.sum) ^ r / (s.map (fun y => (y / s.sum) ^ r)).sum) := by
  simp [computeProbs, List.map_map, Function.comp_def]

lemma sum_pos_of_mem_pos {l : List ℚ} (hne : l ≠ []) (hpos : ∀ x ∈ l, 0 < x) :
    0 < l.sum := by
  induction l with
  | nil => exact absurd rfl hne
  | cons a l ih =>
    rcases List.eq_nil_or_concat l with h | _
    · subst h; simpa using hpos a (by simp)
    · have hl : l ≠ [] := by
        rintro rfl
        simp_all
      have := ih hl (fun x hx => hpos x (List.mem_cons_of_mem _ hx))
      have ha := hpos a (List.mem_cons_self a l)
      simp only [List.sum_cons]
      linarith

lemma computeProbs_base_pos {s : List ℚ} (r : ℕ) (hne : s ≠ [])
    (hpos : ∀ x ∈ s, 0 < x) :
    ∀ y ∈ s.map (fun x => (x / s.sum) ^ r), 0 < y := by
  intro y hy
  simp only [List.mem_map] at hy
  obtain ⟨x, hx, rfl⟩ := hy
  exact pow_pos (div_pos (hpos x hx) (sum_pos_of_mem_pos hne hpos)) r

/-- C1: the probability vector is the renormalization of `((s_i / Σs)^r)_i`;
for `r = 1` it is size-proportional and for `r = 0` it is uniform. -/
theorem computeProbs_spec (s : List ℚ) (r : ℕ) (hne : s ≠ [])
    (hpos : ∀ x ∈ s, 0 < x) :
    computeProbs s r =
        s.map (fun x => (x / s.sum) ^ r / (s.map (fun y => (y / s.sum) ^ r)).sum)
      ∧ computeProbs s 1 = s.map (fun x => x / s.sum)
      ∧ computeProbs s 0 = s.map (fun _ => (s.length : ℚ)⁻¹) := by
  have hsum : 0 < s.sum := sum_pos_of_mem_pos hne hpos
  refine ⟨computeProbs_eq_map s r, ?_, ?_⟩
  · rw [computeProbs_eq_map]
    have h1 : (s.map (fun y => (y / s.sum) ^ 1)).sum = 1 := by
      simp only [pow_one]
      rw [sum_map_div, div_self hsum.ne']
    rw [h1]
    simp
  · rw [computeProbs_eq_map]
    have h0 : (s.map (fun y => (y / s.sum) ^ 0)).sum = (s.length : ℚ) := by
      simp [List.sum_replicate, nsmul_eq_mul]
    rw [h0]
    apply List.map_congr_left
    intro x _
    simp [one_div]

/-- C1 witness. -/
theorem computeProbs_spec_witness :
    computeProbs [1, 3] 2 =
        [1, 3].map (fun x => (x / ([1, 3] : List ℚ).sum) ^ 2 /
          (([1, 3] : List ℚ).map (fun y => (y / ([1, 3] : List ℚ).sum) ^ 2)).sum)
      ∧ computeProbs [1, 3] 1 = [1, 3].map (fun x => x / ([1, 3] : List ℚ).sum)
      ∧ computeProbs [1, 3] 0 =
          ([1, 3] : List ℚ).map (fun _ => (([1, 3] : List ℚ).length : ℚ)⁻¹) :=
  computeProbs_spec [1, 3] 2 (by decide) (by decide)

/-- C4: the renormalized probability vector sums exactly to 1 (over ℚ). -/
theorem computeProbs_sum_one (s : List ℚ) (r : ℕ) (hne : s ≠ [])
    (hpos : ∀ x ∈ s, 0 < x) : (computeProbs s r).sum = 1 := by
  have hb := computeProbs_base_pos r hne hpos
  have hmapne : s.map (fun x => (x / s.sum) ^ r) ≠ [] := by
    simpa using hne
  have hsum1 : 0 < (s.map (fun x => (x / s.sum) ^ r)).sum :=
    sum_pos_of_mem_pos hmapne hb
  rw [computeProbs_eq_map]
  have : (s.map (fun x => (x / s.sum) ^ r /
      (s.map (fun y => (y / s.sum) ^ r)).sum)) =
      ((s.map (fun x => (x / s.sum) ^ r)).map
        (fun x => x / (s.map (fun y => (y / s.sum) ^ r)).sum)) := by
    simp [List.map_map, Function.comp_def]
  rw [this, sum_map_div, div_self hsum1.ne']

/-- C4 witness. -/
theorem computeProbs_sum_one_witness : (computeProbs [1, 3] 2).sum = 1 :=
  computeProbs_sum_one [1, 3] 2 (by decide) (by decide)

/- ### The scan-subtraction selection loop -/

lemma scanSubtract_le_length (probs : List ℚ) (u : ℚ) :
    scanSubtract probs u ≤ probs.length := by
  induction probs generalizing u with
  | nil => simp [scanSubtract]
  | cons p ps ih =>
    simp only [scanSubtract, List.length_cons]
    split
    · exact Nat.succ_le_succ (ih (u - p))
    · exact Nat.zero_le _

lemma scanSubtract_pos {probs : List ℚ} {u : ℚ} (hne : probs ≠ []) (h0 : 0 ≤ u) :
    1 ≤ scanSubtract probs u := by
  cases probs with
  | nil => exact absurd rfl hne
  | cons p ps => simp [scanSubtract, h0]

lemma take_sum_le_of_lt_scanSubtract (probs : List ℚ) (u : ℚ) :
    ∀ j, j < scanSubtract probs u → (probs.take j).sum ≤ u := by
  induction probs generalizing u with
  | nil => intro j hj; simp [scanSubtract] at hj
  | cons p ps ih =>
    intro j hj
    simp only [scanSubtract] at hj
    by_cases h0 : 0 ≤ u
    · rw [if_pos h0] at hj
      cases j with
      | zero => simpa using h0
      | succ j =>
        have := ih (u - p) j (Nat.lt_of_succ_lt_succ hj)
        simp only [List.take_succ_cons, List.sum_cons]
        linarith
    · rw [if_neg h0] at hj
      omega

lemma scanSubtract_stop (probs : List ℚ) (u : ℚ) :
    scanSubtract probs u = probs.length ∨
      u < (probs.take (scanSubtract probs u)).sum := by
  induction probs generalizing u with
  | nil => simp [scanSubtract]
  | cons p ps ih =>
    by_cases h0 : 0 ≤ u
    · simp only [scanSubtract, if_pos h0, List.length_cons, List.take_succ_cons,
        List.sum_cons]
      rcases ih (u - p) with h | h
      · exact Or.inl (by omega)
      · exact Or.inr (by linarith)
    · simp only [scanSubtract, if_neg h0, List.take_zero, List.sum_nil]
      exact Or.inr (by linarith)

/-- The scan selects the least index whose cumulative interval contains the
draw, as long as the draw lies below the total sum. -/
lemma selectTask_least {probs : List ℚ} {u : ℚ} (h0 : 0 ≤ u)
    (hu : u < probs.sum) :
    (probs.take (selectTask probs u)).sum ≤ u
    ∧ u < (probs.take (selectTask probs u + 1)).sum
    ∧ ∀ j, u < (probs.take (j + 1)).sum → selectTask probs u ≤ j := by
  have hne : probs ≠ [] := by
    rintro rfl
    simp only [List.sum_nil] at hu
    linarith
  have h1 : 1 ≤ scanSubtract probs u := scanSubtract_pos hne h0
  have hsel : selectTask probs u + 1 = scanSubtract probs u := by
    simp only [selectTask]; omega
  refine ⟨?_, ?_, ?_⟩
  · exact take_sum_le_of_lt_scanSubtract probs u _ (by omega)
  · rw [hsel]
    rcases scanSubtract_stop probs u with h | h
    · rw [h, List.take_length]; exact hu
    · exact h
  · intro j hj
    by_contra hlt
    have hjlt : j + 1 < scanSubtract probs u := by omega
    have := take_sum_le_of_lt_scanSubtract probs u (j + 1) hjlt
    linarith

/-- C2: on the probability vector of `merge_dataset` and a draw `u ∈ [0,1)`,
the scan-subtraction loop selects the index whose cumulative interval
contains `u`, i.e. the least `i` with `u < p_1 + ... + p_(i+1)`. -/
theorem selectTask_spec (s : List ℚ) (r : ℕ) (u : ℚ) (hne : s ≠ [])
    (hpos : ∀ x ∈ s, 0 < x) (h0 : 0 ≤ u) (h1 : u < 1) :
    ((computeProbs s r).take (selectTask (computeProbs s r) u)).sum ≤ u
    ∧ u < ((computeProbs s r).take (selectTask (computeProbs s r) u + 1)).sum
    ∧ ∀ j, u < ((computeProbs s r).take (j + 1)).sum →
        selectTask (computeProbs s r) u ≤ j := by
  have hsum : (computeProbs s r).sum = 1 := computeProbs_sum_one s r hne hpos
  exact selectTask_least h0 (by rw [hsum]; exact h1)

/-- C2 witness. -/
theorem selectTask_spec_witness :
    ((computeProbs [1, 1] 1).take (selectTask (computeProbs [1, 1] 1) (1/4))).sum ≤ 1/4
    ∧ (1/4 : ℚ) < ((computeProbs [1, 1] 1).take
        (selectTask (computeProbs [1, 1] 1) (1/4) + 1)).sum
    ∧ ∀ j, (1/4 : ℚ) < ((computeProbs [1, 1] 1).take (j + 1)).sum →
        selectTask (computeProbs [1, 1] 1) (1/4) ≤ j :=
  selectTask_spec [1, 1] 1 (1/4) (by decide) (by decide) (by norm_num) (by norm_num)

/- ### Index-range invariant of the generator -/

lemma selectTask_lt_length {probs : List ℚ} {u : ℚ} (hne : probs ≠ [])
    (h0 : 0 ≤ u) : selectTask probs u < probs.length := by
  have h1 := scanSubtract_pos hne h0
  have h2 := scanSubtract_le_length probs u
  have h3 : probs.length ≠ 0 := by
    intro h
    exact hne (List.eq_nil_of_length_eq_zero h)
  simp only [selectTask]
  omega

lemma computeProbs_length (s : List ℚ) (r : ℕ) :
    (computeProbs s r).length = s.length := by
  simp [computeProbs]

lemma mergeStep_index {α : Type} {dataset_list : List (List α)} {probs : List ℚ}
    {iterators : List (List α)} {u : ℚ} {pair : ℕ × α} {its1 : List (List α)}
    (h : mergeStep dataset_list probs iterators u = some (pair, its1)) :
    pair.1 = selectTask probs u ∧ pair.1 < iterators.length
    ∧ its1.length = iterators.length := by
  simp only [mergeStep] at h
  split at h
  · cases h
  · rename_i it hg
    have hlt : selectTask probs u < iterators.length := by
      by_contra hge
      rw [List.getElem?_eq_none (le_of_not_lt hge)] at hg
      cases hg
    split at h
    · cases h
      exact ⟨rfl, hlt, List.length_set iterators _ _⟩
    · split at h
      · cases h
      · split at h
        · cases h
          exact ⟨rfl, hlt, List.length_set iterators _ _⟩
        · cases h

/-- Inversion of one successful round of the generator loop. -/
lemma mergeRun_cons {α : Type} {dataset_list : List (List α)} {probs : List ℚ}
    {iterators : List (List α)} {u : ℚ} {us : List ℚ}
    {out : List (ℕ × α)} {itF : List (List α)}
    (h : mergeRun dataset_list probs iterators (u :: us) = some (out, itF)) :
    ∃ pair its1 out1, mergeStep dataset_list probs iterators u = some (pair, its1)
      ∧ mergeRun dataset_list probs its1 us = some (out1, itF)
      ∧ out = pair :: out1 := by
  simp only [mergeRun] at h
  split at h
  · cases h
  · rename_i pair its1 hs
    split at h
    · cases h
    · rename_i out1 itF1 hr
      cases h
      exact ⟨pair, its1, out1, hs, hr, rfl⟩

lemma mergeRun_fst_lt {α : Type} (dataset_list : List (List α)) (probs : List ℚ) :
    ∀ (us : List ℚ) (iterators : List (List α)) (out : List (ℕ × α))
      (itF : List (List α)),
      iterators.length = dataset_list.length →
      mergeRun dataset_list probs iterators us = some (out, itF) →
      ∀ p ∈ out, p.1 < dataset_list.length := by
  intro us
  induction us with
  | nil =>
    intro iterators out itF hlen h
    simp only [mergeRun, Option.some.injEq, Prod.mk.injEq] at h
    obtain ⟨h1, _⟩ := h
    simp [← h1]
  | cons u us ih =>
    intro iterators out itF hlen h
    obtain ⟨pair, its1, out1, hs, hr, rfl⟩ := mergeRun_cons h
    obtain ⟨_, hlt, hpres⟩ := mergeStep_index hs
    intro p hp
    rcases List.mem_cons.mp hp with rfl | hp
    · omega
    · exact ih its1 out1 itF (by omega) hr p hp

/-- C9: every pair yielded by `merge_dataset` carries a task index in
`[0, k)`; moreover the scan clamps every draw `u ≥ 0` — even one at or above
the probability total — to an index below `k`. -/
theorem merge_dataset_index_range {α : Type} (dataset_list : List (List α))
    (dataset_size : List ℚ) (r : ℕ) (us : List ℚ) (out : List (ℕ × α))
    (hne : dataset_list ≠ [])
    (hsz : dataset_size.length = dataset_list.length)
    (hout : merge_dataset dataset_list dataset_size r us = some out) :
    (∀ p ∈ out, p.1 < dataset_list.length)
    ∧ ∀ u : ℚ, 0 ≤ u →
        selectTask (computeProbs dataset_size r) u < dataset_list.length := by
  constructor
  · simp only [merge_dataset, Option.map_eq_some'] at hout
    obtain ⟨⟨out1, itF⟩, hrun, hfst⟩ := hout
    simp only at hfst
    subst hfst
    exact mergeRun_fst_lt dataset_list _ us dataset_list out1 itF rfl hrun
  · intro u hu
    have hpne : computeProbs dataset_size r ≠ [] := by
      intro h
      have := computeProbs_length dataset_size r
      rw [h] at this
      simp only [List.length_nil] at this
      exact hne (List.eq_nil_of_length_eq_zero (by omega))
    have := selectTask_lt_length hpne hu
    rw [computeProbs_length] at this
    omega

/-- C9 witness: the draw `u = 2` exceeds the probability total 1 and is
clamped to the last task. -/
theorem merge_dataset_index_range_witness :
    (∀ p ∈ [((1 : ℕ), (7 : ℕ))], p.1 < ([[5], [7]] : List (List ℕ)).length)
    ∧ ∀ u : ℚ, 0 ≤ u →
        selectTask (computeProbs [1, 1] 1) u < ([[5], [7]] : List (List ℕ)).length :=
  merge_dataset_index_range [[5], [7]] [1, 1] 1 [2] [(1, 7)]
    (by decide) (by decide)
    (by norm_num [merge_dataset, mergeRun, mergeStep, selectTask, scanSubtract,
      computeProbs])

/- ### Totality of the generator on non-empty datasets (C3) -/

lemma mergeStep_succeeds {α : Type} (dataset_list : List (List α)) (probs : List ℚ)
    (iterators : List (List α)) (u : ℚ)
    (hi : selectTask probs u < iterators.length)
    (hlen : iterators.length = dataset_list.length)
    (hne : ∀ d ∈ dataset_list, d ≠ []) :
    ∃ pair its1, mergeStep dataset_list probs iterators u = some (pair, its1) := by
  have hid : selectTask probs u < dataset_list.length := by omega
  simp only [mergeStep, List.getElem?_eq_getElem hi]
  cases hit : iterators[selectTask probs u] with
  | cons item rest => exact ⟨_, _, rfl⟩
  | nil =>
    simp only [List.getElem?_eq_getElem hid]
    cases hd : dataset_list[selectTask probs u] with
    | cons item rest => exact ⟨_, _, rfl⟩
    | nil =>
      exact absurd (hd ▸rfl) (hne _ (List.getElem_mem hid))

lemma mergeRun_cons_eq {α : Type} {dataset_list : List (List α)} {probs : List ℚ}
    {iterators : List (List α)} {u : ℚ} (us : List ℚ) {pair : ℕ × α}
    {its1 : List (List α)}
    (hstep : mergeStep dataset_list probs iterators u = some (pair, its1)) :
    mergeRun dataset_list probs iterators (u :: us) =
      (mergeRun dataset_list probs its1 us).map (fun q => (pair :: q.1, q.2)) := by
  simp only [mergeRun, hstep]
  rcases mergeRun dataset_list probs its1 us with _ | ⟨out, itF⟩ <;> simp

lemma mergeRun_total {α : Type} (dataset_list : List (List α)) (probs : List ℚ)
    (hlenp : probs.length = dataset_list.length)
    (hne : ∀ d ∈ dataset_list, d ≠ []) (hk : dataset_list ≠ []) :
    ∀ (us : List ℚ) (iterators : List (List α)),
      iterators.length = dataset_list.length → (∀ u ∈ us, 0 ≤ u) →
      ∃ out itF, mergeRun dataset_list probs iterators us = some (out, itF)
        ∧ out.length = us.length := by
  intro us
  induction us with
  | nil => exact fun iterators _ _ => ⟨[], iterators, rfl, rfl⟩
  | cons u us ih =>
    intro iterators hlen hus
    have hpne : probs ≠ [] := by
      intro h
      rw [h] at hlenp
      exact hk (List.eq_nil_of_length_eq_zero (by simpa using hlenp.symm))
    have hi : selectTask probs u < iterators.length := by
      have := selectTask_lt_length hpne (hus u (List.mem_cons_self u us))
      omega
    obtain ⟨pair, its1, hstep⟩ := mergeStep_succeeds dataset_list probs iterators u
      hi hlen hne
    obtain ⟨_, _, hpres⟩ := mergeStep_index hstep
    obtain ⟨out, itF, hrun, hout⟩ := ih its1 (by omega)
      (fun v hv => hus v (List.mem_cons_of_mem u hv))
    refine ⟨pair :: out, itF, ?_, by simp [hout]⟩
    rw [mergeRun_cons_eq us hstep, hrun]
    rfl

/-- C3 (amended): on non-empty task datasets, with `dataset_size` the true
dataset sizes, an exhausted per-task iterator is restarted and yields again
without raising, so the generator yields one pair per draw, for any number of
draws. -/
theorem merge_dataset_total {α : Type} (dataset_list : List (List α))
    (task_ratio : ℕ) (us : List ℚ)
    (hne : ∀ d ∈ dataset_list, d ≠ []) (hk : dataset_list ≠ [])
    (hus : ∀ u ∈ us, 0 ≤ u) :
    ∃ out, merge_dataset dataset_list
        (dataset_list.map (fun d => ((d.length : ℚ)))) task_ratio us = some out
      ∧ out.length = us.length := by
  have hlenp : (computeProbs (dataset_list.map (fun d => ((d.length : ℚ))))
      task_ratio).length = dataset_list.length := by
    rw [computeProbs_length, List.length_map]
  obtain ⟨out, itF, hrun, hout⟩ := mergeRun_total dataset_list _ hlenp hne hk us
    dataset_list rfl hus
  refine ⟨out, ?_, hout⟩
  simp only [merge_dataset, hrun, Option.map_some']

/-- C3 witness: two tasks of sizes 1 and 2, two draws, two pairs yielded
(the size-1 task restarts whenever it is drawn again). -/
theorem merge_dataset_total_witness :
    ∃ out, merge_dataset [[0], [1, 2]]
        (([[0], [1, 2]] : List (List ℕ)).map (fun d => ((d.length : ℚ)))) 1
        [1/2, 0] = some out
      ∧ out.length = ([1/2, 0] : List ℚ).length :=
  merge_dataset_total [[0], [1, 2]] 1 [1/2, 0] (by decide) (by decide)
    (by norm_num)

/-- C3 counterexample: with datasets `[[], [0]]` of true sizes `[0, 1]` and
temperature `0`, the empty task still gets probability 1/2; drawing it makes
the restart itself raise `StopIteration`, so the generator dies without
yielding a single pair — refuting the claim for arbitrary task datasets. -/
theorem merge_dataset_raises_cex :
    merge_dataset ([[], [0]] : List (List ℕ)) [0, 1] 0 [1/4] = none := by
  norm_num [merge_dataset, mergeRun, mergeStep, selectTask, scanSubtract,
    computeProbs]

/- ### Per-task cycling (C5) -/

lemma mergeStep_cases {α : Type} {dataset_list : List (List α)} {probs : List ℚ}
    {iterators : List (List α)} {u : ℚ} {pair : ℕ × α} {its1 : List (List α)}
    (h : mergeStep dataset_list probs iterators u = some (pair, its1)) :
    ∃ it, iterators[pair.1]? = some it ∧
      ((∃ rest, it = pair.2 :: rest ∧ its1 = iterators.set pair.1 rest)
       ∨ (it = [] ∧ ∃ rest, dataset_list[pair.1]? = some (pair.2 :: rest)
            ∧ its1 = iterators.set pair.1 rest)) := by
  simp only [mergeStep] at h
  split at h
  · cases h
  · rename_i it hg
    split at h
    · cases h
      exact ⟨_, hg, Or.inl ⟨_, rfl, rfl⟩⟩
    · split at h
      · cases h
      · split at h
        · cases h
          rename_i hd
          exact ⟨_, hg, Or.inr ⟨rfl, _, hd, rfl⟩⟩
        · cases h

lemma mergeRun_cycle {α : Type} (dataset_list : List (List α)) (probs : List ℚ)
    (j : ℕ) (d : List α) (hd : dataset_list[j]? = some d) :
    ∀ (us : List ℚ) (iterators : List (List α)) (out : List (ℕ × α))
      (itF : List (List α)) (p : ℕ),
      mergeRun dataset_list probs iterators us = some (out, itF) →
      iterators[j]? = some (d.drop p) → p ≤ d.length →
      ∀ t, t < ((out.filter (fun q => q.1 == j)).map Prod.snd).length →
        ((out.filter (fun q => q.1 == j)).map Prod.snd)[t]? =
          d[(p + t) % d.length]? := by
  intro us
  induction us with
  | nil =>
    intro iterators out itF p hrun hit hp t ht
    simp only [mergeRun, Option.some.injEq, Prod.mk.injEq] at hrun
    obtain ⟨h1, _⟩ := hrun
    rw [← h1] at ht
    simp at ht
  | cons u us ih =>
    intro iterators out itF p hrun hit hp t ht
    obtain ⟨pair, its1, out1, hstep, hrun1, rfl⟩ := mergeRun_cons hrun
    obtain ⟨it, hgi, hbr⟩ := mergeStep_cases hstep
    have hjlen : j < iterators.length := (List.getElem?_eq_some.mp hit).1
    by_cases hij : pair.1 = j
    · rw [hij] at hgi hbr
      have hitd : it = d.drop p := by
        rw [hgi] at hit
        exact Option.some.inj hit
      have hfil : (pair :: out1).filter (fun q => q.1 == j) =
          pair :: out1.filter (fun q => q.1 == j) := by
        rw [List.filter_cons, if_pos (by simp [hij])]
      rcases hbr with ⟨rest, hcons, hset⟩ | ⟨hnil, rest, hdl, hset⟩
      · have hplt : p < d.length := by
          by_contra hge
          rw [List.drop_eq_nil_of_le (le_of_not_lt hge)] at hitd
          rw [hitd] at hcons
          cases hcons
        have hdp : d.drop p = d[p] :: d.drop (p + 1) := List.drop_eq_getElem_cons hplt
        rw [hitd, hdp] at hcons
        obtain ⟨hitem, hrest⟩ := List.cons.injEq _ _ _ _ ▸ hcons
        have hset1 : its1[j]? = some (d.drop (p + 1)) := by
          rw [hset, hrest, List.getElem?_set_eq_of_lt _ hjlen]
        cases t with
        | zero =>
          rw [hfil]
          simp only [List.map_cons, List.getElem?_cons_zero, Nat.add_zero]
          rw [Nat.mod_eq_of_lt hplt, List.getElem?_eq_getElem hplt, hitem]
        | succ t =>
          rw [hfil] at ht ⊢
          simp only [List.map_cons, List.getElem?_cons_succ, List.length_cons] at ht ⊢
          have := ih its1 out1 itF (p + 1) hrun1 hset1 (by omega) t (by omega)
          rw [this]
          have harith : p + 1 + t = p + (t + 1) := by omega
          rw [harith]
      · have hp_eq : p = d.length := by
          have : d.length ≤ p := by
            by_contra hlt
            rw [hitd, List.drop_eq_getElem_cons (lt_of_not_le hlt)] at hnil
            cases hnil
          omega
        rw [hd] at hdl
        have hdval : d = pair.2 :: rest := Option.some.inj hdl
        have hlen1 : 1 ≤ d.length := by rw [hdval]; simp
        have hset1 : its1[j]? = some (d.drop 1) := by
          rw [hset, List.getElem?_set_eq_of_lt _ hjlen, hdval]
          simp
        cases t with
        | zero =>
          rw [hfil]
          simp only [List.map_cons, List.getElem?_cons_zero, Nat.add_zero]
          rw [hp_eq, Nat.mod_self, hdval]
          simp
        | succ t =>
          rw [hfil] at ht ⊢
          simp only [List.map_cons, List.getElem?_cons_succ, List.length_cons] at ht ⊢
          have := ih its1 out1 itF 1 hrun1 hset1 hlen1 t (by omega)
          rw [this, hp_eq]
          have harith : (d.length + (t + 1)) % d.length = (1 + t) % d.length := by
            rw [Nat.add_mod_left]
            have : t + 1 = 1 + t := by omega
            rw [this]
          rw [harith]
    · have hfil : (pair :: out1).filter (fun q => q.1 == j) =
          out1.filter (fun q => q.1 == j) := by
        rw [List.filter_cons, if_neg (by simp [hij])]
      have hset1 : its1[j]? = some (d.drop p) := by
        rcases hbr with ⟨rest, _, hset⟩ | ⟨_, rest, _, hset⟩ <;>
          rw [hset, List.getElem?_set_ne hij, hit]
      rw [hfil] at ht ⊢
      exact ih its1 out1 itF p hrun1 hset1 hp t ht

/-- C5: the subsequence of items that `merge_dataset` yields for task `j` is
dataset `j`'s items in iteration order, cycled with period `d.length`,
independently of the other tasks. -/
theorem merge_dataset_cycle {α : Type} (dataset_list : List (List α))
    (dataset_size : List ℚ) (task_ratio : ℕ) (us : List ℚ) (out : List (ℕ × α))
    (j : ℕ) (d : List α) (hd : dataset_list[j]? = some d)
    (hout : merge_dataset dataset_list dataset_size task_ratio us = some out) :
    ∀ t, t < ((out.filter (fun q => q.1 == j)).map Prod.snd).length →
      ((out.filter (fun q => q.1 == j)).map Prod.snd)[t]? = d[t % d.length]? := by
  simp only [merge_dataset, Option.map_eq_some'] at hout
  obtain ⟨⟨out1, itF⟩, hrun, hfst⟩ := hout
  simp only at hfst
  subst hfst
  intro t ht
  have hit : dataset_list[j]? = some (d.drop 0) := by simpa using hd
  have := mergeRun_cycle dataset_list _ j d hd us dataset_list out1 itF 0
    hrun hit (Nat.zero_le _) t ht
  simpa using this

/-- C5 witness: one task of two items drawn three times yields them cycled;
the third yield (index 2) is the first item again. -/
theorem merge_dataset_cycle_witness :
    ((([((0 : ℕ), (10 : ℕ)), (0, 20), (0, 10)]).filter
        (fun q => q.1 == 0)).map Prod.snd)[2]? = [10, 20][2 % [10, 20].length]? :=
  merge_dataset_cycle [[10, 20]] [2] 1 [0, 0, 0] [(0, 10), (0, 20), (0, 10)] 0
    [10, 20] (by decide)
    (by norm_num [merge_dataset, mergeRun, mergeStep, selectTask, scanSubtract,
      computeProbs])
    2 (by decide)

/- ### `average_dic` -/

/-- The key list of a Python dict modelled as an association list. -/
def dicKeys {K : Type} (d : List (K × ℚ)) : List K := d.map Prod.fst

/-- `set(dic_sum.keys()) == set(dic.keys())`. -/
def keySetEqb {K : Type} [DecidableEq K] (d1 d2 : List (K × ℚ)) : Bool :=
  (dicKeys d1).all (fun k => k ∈ dicKeys d2)
    && (dicKeys d2).all (fun k => k ∈ dicKeys d1)

/-- `dic[key]` (0 if absent; a Python dict's keys are unique, so `find?`
returns the key's one binding). -/
def lookupD {K : Type} [DecidableEq K] (d : List (K × ℚ)) (k : K) : ℚ :=
  ((d.find? (fun p => p.1 == k)).map Prod.snd).getD 0

/-- `for key, value in dic.items(): dic_sum[key] += value`, run after the
assert guarantees the key sets agree: every key of `dic_sum` gains `dic`'s
value for it. -/
def addDic {K : Type} [DecidableEq K] (dic_sum dic : List (K × ℚ)) :
    List (K × ℚ) :=
  dic_sum.map (fun p => (p.1, p.2 + lookupD dic p.1))

/-- The `for dic in dic_list` loop of `average_dic`: an empty accumulator
copies the dict, otherwise the assert compares key sets (`none` = the
assertion raising) and the values are accumulated. -/
def sumLoop {K : Type} [DecidableEq K] :
    List (K × ℚ) → List (List (K × ℚ)) → Option (List (K × ℚ))
  | dic_sum, [] => some dic_sum
  | dic_sum, dic :: rest =>
    if dic_sum.length = 0 then sumLoop dic rest
    else if keySetEqb dic_sum dic then sumLoop (addDic dic_sum dic) rest
    else none

/-- `average_dic(dic_list)`: `{}` on an empty list, else the accumulation
loop followed by `dic_sum[key] /= len(dic_list)`. -/
def average_dic {K : Type} [DecidableEq K] (dic_list : List (List (K × ℚ))) :
    Option (List (K × ℚ)) :=
  if dic_list.length = 0 then some []
  else
    match sumLoop [] dic_list with
    | none => none
    | some dic_sum =>
      some (dic_sum.map (fun p => (p.1, p.2 / (dic_list.length : ℚ))))

/-- Some dictionary of the list is preceded by a non-empty dictionary whose
key set differs from its own. -/
def keyMismatch {K : Type} (l : List (List (K × ℚ))) : Prop :=
  ∃ (j1 j2 : ℕ) (d1 d2 : List (K × ℚ)), j1 < j2 ∧ l[j1]? = some d1
    ∧ l[j2]? = some d2 ∧ d1 ≠ []
    ∧ ¬ (∀ k, k ∈ dicKeys d1 ↔ k ∈ dicKeys d2)

lemma keySetEqb_iff {K : Type} [DecidableEq K] (d1 d2 : List (K × ℚ)) :
    keySetEqb d1 d2 = true ↔ (∀ k, k ∈ dicKeys d1 ↔ k ∈ dicKeys d2) := by
  simp only [keySetEqb, Bool.and_eq_true, List.all_eq_true, decide_eq_true_eq]
  constructor
  · rintro ⟨h1, h2⟩ k
    exact ⟨fun hk => h1 k hk, fun hk => h2 k hk⟩
  · intro h
    exact ⟨fun k hk => (h k).mp hk, fun k hk => (h k).mpr hk⟩

lemma dicKeys_addDic {K : Type} [DecidableEq K] (s d : List (K × ℚ)) :
    dicKeys (addDic s d) = dicKeys s := by
  simp [dicKeys, addDic, List.map_map, Function.comp_def]

lemma addDic_ne_nil {K : Type} [DecidableEq K] {s : List (K × ℚ)}
    (d : List (K × ℚ)) (h : s ≠ []) : addDic s d ≠ [] := by
  simp only [addDic, ne_eq, List.map_eq_nil_iff]
  exact h

lemma sumLoop_none_of_ne {K : Type} [DecidableEq K] :
    ∀ (l : List (List (K × ℚ))) (s : List (K × ℚ)), s ≠ [] →
      (sumLoop s l = none ↔
        ∃ (j : ℕ) (d : List (K × ℚ)), l[j]? = some d
          ∧ ¬ (∀ k, k ∈ dicKeys s ↔ k ∈ dicKeys d)) := by
  intro l
  induction l with
  | nil =>
    intro s hs
    simp [sumLoop]
  | cons d rest ih =>
    intro s hs
    have hlen : ¬ s.length = 0 := by
      simpa [List.length_eq_zero] using hs
    simp only [sumLoop, if_neg hlen]
    by_cases hk : keySetEqb s d = true
    · rw [if_pos hk]
      rw [ih (addDic s d) (addDic_ne_nil d hs)]
      constructor
      · rintro ⟨j, d1, hj, hmis⟩
        refine ⟨j + 1, d1, by simpa using hj, ?_⟩
        rw [dicKeys_addDic] at hmis
        exact hmis
      · rintro ⟨j, d1, hj, hmis⟩
        cases j with
        | zero =>
          simp only [List.getElem?_cons_zero, Option.some.injEq] at hj
          rw [← hj] at hmis
          exact absurd ((keySetEqb_iff s d).mp hk) hmis
        | succ j =>
          refine ⟨j, d1, by simpa using hj, ?_⟩
          rw [dicKeys_addDic]
          exact hmis
    · rw [if_neg hk]
      simp only [true_iff]
      refine ⟨0, d, by simp, ?_⟩
      intro hall
      exact hk ((keySetEqb_iff s d).mpr hall)

lemma sumLoop_nil_none_iff {K : Type} [DecidableEq K] :
    ∀ l : List (List (K × ℚ)), sumLoop [] l = none ↔ keyMismatch l := by
  intro l
  induction l with
  | nil =>
    simp [sumLoop, keyMismatch]
  | cons d rest ih =>
    have hstep : sumLoop ([] : List (K × ℚ)) (d :: rest) = sumLoop d rest := by
      simp [sumLoop]
    rw [hstep]
    by_cases hd : d = []
    · subst hd
      rw [ih]
      constructor
      · rintro ⟨j1, j2, d1, d2, hlt, h1, h2, hne1, hmis⟩
        exact ⟨j1 + 1, j2 + 1, d1, d2, by omega, by simpa using h1,
          by simpa using h2, hne1, hmis⟩
      · rintro ⟨j1, j2, d1, d2, hlt, h1, h2, hne1, hmis⟩
        cases j1 with
        | zero =>
          simp only [List.getElem?_cons_zero, Option.some.injEq] at h1
          exact absurd h1.symm hne1
        | succ j1 =>
          cases j2 with
          | zero => omega
          | succ j2 =>
            exact ⟨j1, j2, d1, d2, by omega, by simpa using h1,
              by simpa using h2, hne1, hmis⟩
    · rw [sumLoop_none_of_ne rest d hd]
      constructor
      · rintro ⟨j, d2, hj, hmis⟩
        exact ⟨0, j + 1, d, d2, by omega, by simp, by simpa using hj, hd, hmis⟩
      · rintro ⟨j1, j2, d1, d2, hlt, h1, h2, hne1, hmis⟩
        cases j1 with
        | zero =>
          simp only [List.getElem?_cons_zero, Option.some.injEq] at h1
          subst h1
          cases j2 with
          | zero => omega
          | succ j2 => exact ⟨j2, d2, by simpa using h2, hmis⟩
        | succ j1 =>
          cases j2 with
          | zero => omega
          | succ j2 =>
            by_cases hdd1 : ∀ k, k ∈ dicKeys d ↔ k ∈ dicKeys d1
            · refine ⟨j2, d2, by simpa using h2, ?_⟩
              intro hall
              exact hmis (fun k => ((hdd1 k).symm.trans (hall k)))
            · exact ⟨j1, d1, by simpa using h1, hdd1⟩

/-- C6 (amended): `average_dic` returns `{}` on the empty list, and raises
(assertion failure) iff some dictionary is preceded by a non-empty dictionary
with a different key set — empty dictionaries arriving before the first
non-empty one are absorbed without any check. -/
theorem average_dic_spec {K : Type} [DecidableEq K]
    (l : List (List (K × ℚ))) :
    average_dic ([] : List (List (K × ℚ))) = some []
    ∧ (average_dic l = none ↔ keyMismatch l) := by
  refine ⟨by simp [average_dic], ?_⟩
  by_cases hl : l.length = 0
  · rw [List.length_eq_zero] at hl
    subst hl
    simp [average_dic, keyMismatch]
  · simp only [average_dic, if_neg hl]
    rw [← sumLoop_nil_none_iff l]
    rcases h : sumLoop ([] : List (K × ℚ)) l with _ | s <;> simp

/-- C6 counterexample: the key set of `{0: 1}` differs from the first
dictionary's (empty) key set, yet `average_dic [{}, {0: 1}]` does not raise —
it returns `{0: 0.5}` — refuting the claimed equivalence. -/
theorem average_dic_cex :
    average_dic ([[], [(0, 1)]] : List (List (ℕ × ℚ))) = some [(0, 1/2)]
    ∧ ¬ (∀ k : ℕ, k ∈ dicKeys ([(0, (1 : ℚ))]) ↔ k ∈ dicKeys ([] : List (ℕ × ℚ))) := by
  constructor
  · norm_num [average_dic, sumLoop, addDic, lookupD, dicKeys, keySetEqb]
  · intro h
    have h0 := (h 0).mp (by simp [dicKeys])
    simp [dicKeys] at h0

/- ### `average_dic` on agreeing key sets (C10) -/

lemma lookupD_eq_of_mem {K : Type} [DecidableEq K] :
    ∀ (d : List (K × ℚ)), (dicKeys d).Nodup → ∀ p ∈ d, lookupD d p.1 = p.2 := by
  intro d
  induction d with
  | nil => intro _ p hp; cases hp
  | cons q rest ih =>
    intro hnd p hp
    simp only [dicKeys, List.map_cons, List.nodup_cons] at hnd
    obtain ⟨hq, hnd1⟩ := hnd
    rcases List.mem_cons.mp hp with rfl | hp
    · simp only [lookupD]
      rw [List.find?_cons_of_pos _ (by simp)]
      rfl
    · have hne : ¬ (q.1 == p.1) = true := by
        simp only [beq_iff_eq]
        intro h
        exact hq (h ▸ List.mem_map.mpr ⟨p, hp, rfl⟩)
      have hskip : List.find? (fun p1 => p1.1 == p.1) (q :: rest) =
          List.find? (fun p1 => p1.1 == p.1) rest :=
        List.find?_cons_of_neg _ hne
      simp only [lookupD]
      rw [hskip]
      exact ih hnd1 p hp

lemma self_map_lookup {K : Type} [DecidableEq K] (d : List (K × ℚ))
    (hnd : (dicKeys d).Nodup) :
    d.map (fun p => (p.1, lookupD d p.1)) = d := by
  conv_rhs => rw [← List.map_id d]
  apply List.map_congr_left
  intro p hp
  rw [lookupD_eq_of_mem d hnd p hp]
  simp

lemma lookup_map_keyfn {K : Type} [DecidableEq K] (F : K → ℚ) :
    ∀ (d : List (K × ℚ)) (k : K), k ∈ dicKeys d →
      lookupD (d.map (fun p => (p.1, F p.1))) k = F k := by
  intro d
  induction d with
  | nil => intro k hk; simp [dicKeys] at hk
  | cons q rest ih =>
    intro k hk
    by_cases hqk : q.1 = k
    · simp only [List.map_cons, lookupD]
      rw [List.find?_cons_of_pos _ (by simp [hqk])]
      simp [hqk]
    · have hskip : List.find? (fun p1 => p1.1 == k)
          ((q.1, F q.1) :: rest.map (fun p => (p.1, F p.1))) =
          List.find? (fun p1 => p1.1 == k) (rest.map (fun p => (p.1, F p.1))) :=
        List.find?_cons_of_neg _ (by simp [hqk])
      simp only [List.map_cons, lookupD]
      rw [hskip]
      have hk1 : k ∈ q.1 :: dicKeys rest := by
        simpa only [dicKeys, List.map_cons] using hk
      rcases List.mem_cons.mp hk1 with h | h
      · exact absurd h.symm hqk
      · exact ih k h

lemma sumLoop_sum {K : Type} [DecidableEq K] (d0 : List (K × ℚ))
    (hne : d0 ≠ []) :
    ∀ (rest : List (List (K × ℚ))) (f : K → ℚ),
      (∀ d ∈ rest, ∀ k, k ∈ dicKeys d ↔ k ∈ dicKeys d0) →
      sumLoop (d0.map (fun p => (p.1, f p.1))) rest =
        some (d0.map (fun p =>
          (p.1, f p.1 + (rest.map (fun d => lookupD d p.1)).sum))) := by
  intro rest
  induction rest with
  | nil =>
    intro f _
    simp [sumLoop]
  | cons d rest ih =>
    intro f hkeys
    have hslen : ¬ (d0.map (fun p => (p.1, f p.1))).length = 0 := by
      simp only [List.length_map, List.length_eq_zero]
      exact hne
    have hkeyss : dicKeys (d0.map (fun p => (p.1, f p.1))) = dicKeys d0 := by
      simp [dicKeys, List.map_map, Function.comp_def]
    have hkeq : keySetEqb (d0.map (fun p => (p.1, f p.1))) d = true := by
      rw [keySetEqb_iff, hkeyss]
      intro k
      exact ((hkeys d (List.mem_cons_self d rest)) k).symm
    simp only [sumLoop, if_neg hslen, if_pos hkeq]
    have haddeq : addDic (d0.map (fun p => (p.1, f p.1))) d =
        d0.map (fun p => (p.1, f p.1 + lookupD d p.1)) := by
      simp [addDic, List.map_map, Function.comp_def]
    rw [haddeq,
      ih (fun k => f k + lookupD d k)
        (fun d1 hd1 => hkeys d1 (List.mem_cons_of_mem d hd1))]
    congr 1
    apply List.map_congr_left
    intro p _
    simp only [List.map_cons, List.sum_cons, Prod.mk.injEq, true_and]
    ring

lemma sumLoop_all_nil {K : Type} [DecidableEq K] :
    ∀ (rest : List (List (K × ℚ))), (∀ d ∈ rest, d = ([] : List (K × ℚ))) →
      sumLoop ([] : List (K × ℚ)) rest = some [] := by
  intro rest
  induction rest with
  | nil => intro _; simp [sumLoop]
  | cons d rest ih =>
    intro h
    have hd : d = [] := h d (List.mem_cons_self d rest)
    subst hd
    simp only [sumLoop, List.length_nil, if_pos rfl]
    exact ih (fun d1 hd1 => h d1 (List.mem_cons_of_mem [] hd1))

/-- C10: on a non-empty list of dictionaries sharing one key set (with unique
keys, as Python dicts have), `average_dic` returns a dictionary with that key
set mapping each key to the arithmetic mean of its values; the inputs are
values, never mutated (the embedding is purely functional, as is the code:
it writes only to a fresh `dic_sum`). -/
theorem average_dic_mean {K : Type} [DecidableEq K] (l : List (List (K × ℚ)))
    (d0 : List (K × ℚ)) (h0 : l[0]? = some d0)
    (hkeys : ∀ d ∈ l, ∀ k, k ∈ dicKeys d ↔ k ∈ dicKeys d0)
    (hnodup : ∀ d ∈ l, (dicKeys d).Nodup) :
    ∃ res, average_dic l = some res
      ∧ (∀ k, k ∈ dicKeys res ↔ k ∈ dicKeys d0)
      ∧ ∀ k ∈ dicKeys res,
          lookupD res k = (l.map (fun d => lookupD d k)).sum / (l.length : ℚ) := by
  cases l with
  | nil => cases h0
  | cons dh rest =>
    have hd0 : dh = d0 := by simpa using h0
    subst hd0
    have hlnz : ¬ (dh :: rest).length = 0 := by simp
    by_cases hdnil : dh = []
    · subst hdnil
      have hall : ∀ d ∈ (([] : List (K × ℚ)) :: rest), d = ([] : List (K × ℚ)) := by
        intro d hd
        cases d with
        | nil => rfl
        | cons q d1 =>
          have := (hkeys (q :: d1) hd q.1).mp (by simp [dicKeys])
          simp [dicKeys] at this
      have hsl : sumLoop ([] : List (K × ℚ)) (([] : List (K × ℚ)) :: rest) = some [] :=
        sumLoop_all_nil _ hall
      refine ⟨[], ?_, by simp, by simp [dicKeys]⟩
      simp [average_dic, hsl]
    · have hnd0 : (dicKeys dh).Nodup := hnodup dh (List.mem_cons_self dh rest)
      have hself : dh.map (fun p => (p.1, lookupD dh p.1)) = dh :=
        self_map_lookup dh hnd0
      have hloop := sumLoop_sum dh hdnil rest (fun k => lookupD dh k)
        (fun d hd => hkeys d (List.mem_cons_of_mem dh hd))
      rw [hself] at hloop
      have hstart : sumLoop ([] : List (K × ℚ)) (dh :: rest) = sumLoop dh rest := by
        simp [sumLoop]
      refine ⟨(dh.map (fun p =>
          (p.1, lookupD dh p.1 + (rest.map (fun d => lookupD d p.1)).sum))).map
            (fun p => (p.1, p.2 / ((dh :: rest).length : ℚ))), ?_, ?_, ?_⟩
      · simp only [average_dic, if_neg hlnz, hstart, hloop]
      · simp [dicKeys, List.map_map, Function.comp_def]
      · intro k hk
        have hkd : k ∈ dicKeys dh := by
          simpa [dicKeys, List.map_map, Function.comp_def] using hk
        have hres : (dh.map (fun p =>
            (p.1, lookupD dh p.1 + (rest.map (fun d => lookupD d p.1)).sum))).map
              (fun p => (p.1, p.2 / ((dh :: rest).length : ℚ))) =
            dh.map (fun p =>
              (p.1, (lookupD dh p.1 + (rest.map (fun d => lookupD d p.1)).sum)
                / ((dh :: rest).length : ℚ))) := by
          simp [List.map_map, Function.comp_def]
        rw [hres,
          lookup_map_keyfn
            (fun k1 => (lookupD dh k1 + (rest.map (fun d => lookupD d k1)).sum)
              / ((dh :: rest).length : ℚ)) dh k hkd]
        simp

/-- C10 witness: `average_dic [{0: 1}, {0: 3}] = {0: 2}`. -/
theorem average_dic_mean_witness :
    ∃ res, average_dic ([[(0, 1)], [(0, 3)]] : List (List (ℕ × ℚ))) = some res
      ∧ (∀ k, k ∈ dicKeys res ↔ k ∈ dicKeys ([(0, (1 : ℚ))] : List (ℕ × ℚ)))
      ∧ ∀ k ∈ dicKeys res,
          lookupD res k =
            (([[(0, 1)], [(0, 3)]] : List (List (ℕ × ℚ))).map
              (fun d => lookupD d k)).sum
            / ((([[(0, 1)], [(0, 3)]] : List (List (ℕ × ℚ))).length : ℚ)) :=
  average_dic_mean [[(0, 1)], [(0, 3)]] [(0, 1)] rfl
    (by
      intro d hd k
      rcases List.mem_cons.mp hd with rfl | hd
      · exact Iff.rfl
      · rcases List.mem_cons.mp hd with rfl | hd
        · simp [dicKeys]
        · cases hd)
    (by
      intro d hd
      rcases List.mem_cons.mp hd with rfl | hd
      · simp [dicKeys]
      · rcases List.mem_cons.mp hd with rfl | hd
        · simp [dicKeys]
        · cases hd)

/-- C6 witness: the error characterization instantiated at a concrete list. -/
theorem average_dic_spec_witness :
    average_dic ([] : List (List (ℕ × ℚ))) = some []
    ∧ (average_dic ([[(0, 1)], [(1, 2)]] : List (List (ℕ × ℚ))) = none ↔
        keyMismatch ([[(0, 1)], [(1, 2)]] : List (List (ℕ × ℚ)))) :=
  average_dic_spec [[(0, 1)], [(1, 2)]]

/- ### Argument validation in `main` (C7, C8) -/

/-- The slice of `args` and of the filesystem state that `main`'s early
validation reads: `os.path.exists(args.output_dir)`, the truthiness of
`os.listdir(args.output_dir)`, the flags, the two logging-step integers and
whether `args.task_name in processors`. -/
structure ArgsCheck where
  output_dir_exists : Bool
  output_dir_listing_nonempty : Bool
  do_train : Bool
  overwrite_output_dir : Bool
  logging_steps : ℤ
  logging_steps_in_sample : ℤ
  task_name_known : Bool

/-- argparse default: `--logging_steps` defaults to 50. -/
def default_logging_steps : ℤ := 50

/-- argparse default: `--logging_steps_in_sample` defaults to -1. -/
def default_logging_steps_in_sample : ℤ := -1

/-- The distinct exceptions the modelled validation can raise. -/
inductive MainError
  | outputDirNotEmpty
  | loggingStepsAssert
  | taskNotFound
deriving DecidableEq

/-- `if os.path.exists(...) and os.listdir(...) and args.do_train and not
args.overwrite_output_dir: raise ValueError(...)`. -/
def checkOutputDir (a : ArgsCheck) : Except MainError Unit :=
  if a.output_dir_exists && a.output_dir_listing_nonempty && a.do_train
      && !a.overwrite_output_dir then
    Except.error MainError.outputDirNotEmpty
  else
    Except.ok ()

/-- `assert not (args.logging_steps != -1 and args.logging_steps_in_sample
!= -1)`. -/
def checkLoggingSteps (a : ArgsCheck) : Except MainError Unit :=
  if a.logging_steps ≠ -1 ∧ a.logging_steps_in_sample ≠ -1 then
    Except.error MainError.loggingStepsAssert
  else
    Except.ok ()

/-- `if args.task_name not in processors: raise ValueError(...)`. -/
def checkTaskName (a : ArgsCheck) : Except MainError Unit :=
  if a.task_name_known then Except.ok () else Except.error MainError.taskNotFound

/-- `main`'s early validation in source order: the output-directory check
runs first, then the logging-steps assert, then the task lookup; the first
raised error stops execution. -/
def mainValidate (a : ArgsCheck) : Except MainError Unit :=
  match checkOutputDir a with
  | Except.error e => Except.error e
  | Except.ok _ =>
    match checkLoggingSteps a with
    | Except.error e => Except.error e
    | Except.ok _ => checkTaskName a

/-- C7: `main` raises the output-directory `ValueError` — stopping before any
later validation or work — exactly when the output directory exists, its
listing is non-empty, `do_train` is set and `overwrite_output_dir` is not. -/
theorem mainValidate_output_dir (a : ArgsCheck) :
    mainValidate a = Except.error MainError.outputDirNotEmpty ↔
      (a.output_dir_exists = true ∧ a.output_dir_listing_nonempty = true
        ∧ a.do_train = true ∧ a.overwrite_output_dir = false) := by
  by_cases h : (a.output_dir_exists && a.output_dir_listing_nonempty && a.do_train
      && !a.overwrite_output_dir) = true
  · have he : checkOutputDir a = Except.error MainError.outputDirNotEmpty := by
      simp only [checkOutputDir, if_pos h]
    simp only [mainValidate, he, true_iff]
    have h1 := h
    simp only [Bool.and_eq_true, Bool.not_eq_true'] at h1
    exact ⟨h1.1.1.1, h1.1.1.2, h1.1.2, h1.2⟩
  · have he : checkOutputDir a = Except.ok () := by
      simp only [checkOutputDir, if_neg h]
    simp only [mainValidate, he]
    constructor
    · intro hcontra
      by_cases h2 : a.logging_steps ≠ -1 ∧ a.logging_steps_in_sample ≠ -1
      · simp only [checkLoggingSteps, if_pos h2] at hcontra
        cases hcontra
      · simp only [checkLoggingSteps, if_neg h2, checkTaskName] at hcontra
        rcases htk : a.task_name_known with _ | _ <;> rw [htk] at hcontra <;>
          simp at hcontra
    · rintro ⟨h1, h2, h3, h4⟩
      exact absurd (by rw [h1, h2, h3, h4]; rfl) h

/-- C7 witness. -/
theorem mainValidate_output_dir_witness :
    mainValidate ⟨true, true, true, false, 50, -1, true⟩ =
        Except.error MainError.outputDirNotEmpty ↔
      ((true : Bool) = true ∧ (true : Bool) = true ∧ (true : Bool) = true
        ∧ (false : Bool) = false) :=
  mainValidate_output_dir ⟨true, true, true, false, 50, -1, true⟩

/-- C8: the logging-steps assert raises exactly when both `logging_steps` and
`logging_steps_in_sample` differ from -1, and otherwise the check passes; in
particular leaving `logging_steps` at its default of 50 and setting
`logging_steps_in_sample` already trips it. -/
theorem checkLoggingSteps_spec (a : ArgsCheck) :
    (checkLoggingSteps a = Except.error MainError.loggingStepsAssert ↔
      (a.logging_steps ≠ -1 ∧ a.logging_steps_in_sample ≠ -1))
    ∧ (checkLoggingSteps a = Except.ok () ↔
      ¬ (a.logging_steps ≠ -1 ∧ a.logging_steps_in_sample ≠ -1))
    ∧ (a.logging_steps = default_logging_steps →
        a.logging_steps_in_sample ≠ -1 →
        checkLoggingSteps a = Except.error MainError.loggingStepsAssert) := by
  refine ⟨?_, ?_, ?_⟩
  · by_cases h : a.logging_steps ≠ -1 ∧ a.logging_steps_in_sample ≠ -1
    · simp [checkLoggingSteps, if_pos h, h]
    · simp [checkLoggingSteps, if_neg h, h]
  · by_cases h : a.logging_steps ≠ -1 ∧ a.logging_steps_in_sample ≠ -1
    · simp [checkLoggingSteps, if_pos h, h]
    · simp [checkLoggingSteps, if_neg h, h]
  · intro h1 h2
    have : a.logging_steps ≠ -1 ∧ a.logging_steps_in_sample ≠ -1 := by
      rw [h1]
      exact ⟨by decide, h2⟩
    simp [checkLoggingSteps, if_pos this]

/-- C8 witness: both flags set trips the assert. -/
theorem checkLoggingSteps_spec_witness :
    checkLoggingSteps ⟨false, false, false, false, 50, 1000, true⟩ =
      Except.error MainError.loggingStepsAssert :=
  ((checkLoggingSteps_spec ⟨false, false, false, false, 50, 1000, true⟩).1).mpr
    ⟨by decide, by decide⟩

end XGlue
